import Mathlib

/-!
Shallow embedding of the Letterboxd top-movies aggregator (`main.go`).

Rating values travel as `Int` (Go `int`); Go `float64` arithmetic on averages
is modelled exactly over `ℚ` (only sums, divisions and comparisons of small
integer-derived values occur, so no rounding behaviour is observable in the
properties below).  HTTP fetching is modelled by an abstract function from a
URL to an optional parsed page; the per-attempt network outcome of `getPage`
is modelled by a function from the attempt index to an outcome.
-/

/-- Struct `Movie` from `main.go`: one (item, rating) observation. -/
structure Movie where
  URL : String
  Rating : Int
deriving DecidableEq, Repr

/-- Struct `MovieWithRatings` from `main.go`: an item with all its collected ratings. -/
structure MovieWithRatings where
  URL : String
  Ratings : List Int
deriving DecidableEq, Repr

/-- Struct `Result` from `main.go`: the scored item used for display. -/
structure Result where
  AvgRating : ℚ
  VoteCount : Nat
  URL : String
  Ratings : List Int
deriving DecidableEq, Repr

/-- Function `avg` from `main.go`: arithmetic mean of a list, `0` on the empty list. -/
def avg (list : List Int) : ℚ :=
  if list.length = 0 then 0 else (list.sum : ℚ) / (list.length : ℚ)

/-- The fixed lookup table `weights` inside `weighted` in `main.go`. -/
def weights : List Int := [100, 95, 80, 65, 40, 20, 5, 0, 0, 0]

/-- The `wList` accumulation loop inside `weighted` in `main.go`: each rating
`i` with `0 <= i < len(weights)` contributes `weights[i]`; every other rating
is skipped. -/
def wList : List Int → List Int
  | [] => []
  | i :: rest =>
    if 0 ≤ i ∧ i < (weights.length : Int) then weights.getD i.toNat 0 :: wList rest
    else wList rest

/-- Function `weighted` from `main.go`: early `0` on an empty input, otherwise the mean
of the table-mapped ratings. -/
def weighted (list : List Int) : ℚ :=
  if list.length = 0 then 0 else avg (wList list)

/-- The worker-count computation at the top of `collectMoviesParallel` in
`main.go`. -/
def numWorkers (friends : Nat) : Nat :=
  let w := friends / 3 + 1
  let w' := if w > 12 then 12 else w
  if w' < 2 then friends else w'

/-- The comparison `movies[i].URL < movies[j].URL` used by `mergeMovies`,
as the induced non-strict "sorted" relation (`a` may come before `b`). -/
def movieLe (a b : Movie) : Prop := a.URL ≤ b.URL

instance : DecidableRel movieLe := fun a b => inferInstanceAs (Decidable (a.URL ≤ b.URL))

instance : IsTotal Movie movieLe := ⟨fun a b => le_total a.URL b.URL⟩

instance : IsTrans Movie movieLe := ⟨fun _ _ _ h1 h2 => le_trans h1 h2⟩

/-- The grouping loop of `mergeMovies` in `main.go`: after the sort, take the
run of entries sharing the head's URL as one `MovieWithRatings`, then continue
after the run. -/
def mergeRuns : List Movie → List MovieWithRatings
  | [] => []
  | m :: rest =>
    ⟨m.URL, m.Rating :: (rest.takeWhile (fun x => x.URL == m.URL)).map (fun x => x.Rating)⟩ ::
      mergeRuns (rest.dropWhile (fun x => x.URL == m.URL))
termination_by l => l.length
decreasing_by
  have h := (@List.dropWhile_sublist _ rest (fun x => x.URL == m.URL)).length_le
  simp only [List.length_cons]
  omega

/-- Function `mergeMovies` from `main.go`: sort the observations by URL, then group
contiguous runs.  `sort.Slice` guarantees only a sorted permutation; the model
uses insertion sort (which is also what Go's sort runs on small slices). -/
def mergeMovies (movies : List Movie) : List MovieWithRatings :=
  mergeRuns (List.insertionSort movieLe movies)

/-- Function `processResults` from `main.go`. -/
def processResults (uniqueMovies : List MovieWithRatings) : List Result :=
  uniqueMovies.map fun movie =>
    ⟨avg movie.Ratings, movie.Ratings.length, movie.URL, movie.Ratings⟩

/-- The threshold filter loop of `showResults` in `main.go`
(`movie.VoteCount >= threshold`). -/
def filterByThreshold (moviesList : List Result) (threshold : Int) : List Result :=
  moviesList.filter (fun movie => decide (threshold ≤ (movie.VoteCount : Int)))

/-- The `less` closure passed to `sort.Slice` in `showResults`:
`if Avg_i != Avg_j then Avg_i > Avg_j else VoteCount_i > VoteCount_j`. -/
def goLess (a b : Result) : Prop :=
  if a.AvgRating ≠ b.AvgRating then b.AvgRating < a.AvgRating
  else b.VoteCount < a.VoteCount

/-- The non-strict "may come before" relation induced by `goLess`
(score descending, ties by vote count descending). -/
def resLe (a b : Result) : Prop :=
  b.AvgRating < a.AvgRating ∨ (a.AvgRating = b.AvgRating ∧ b.VoteCount ≤ a.VoteCount)

instance : DecidableRel resLe := fun a b =>
  inferInstanceAs (Decidable (_ ∨ _))

instance : IsTotal Result resLe := by
  constructor
  intro a b
  rcases lt_trichotomy a.AvgRating b.AvgRating with h | h | h
  · exact Or.inr (Or.inl h)
  · rcases le_total b.VoteCount a.VoteCount with hc | hc
    · exact Or.inl (Or.inr ⟨h, hc⟩)
    · exact Or.inr (Or.inr ⟨h.symm, hc⟩)
  · exact Or.inl (Or.inl h)

instance : IsTrans Result resLe := by
  constructor
  intro a b c hab hbc
  rcases hab with h1 | ⟨h1, h1c⟩
  · rcases hbc with h2 | ⟨h2, _⟩
    · exact Or.inl (h2.trans h1)
    · exact Or.inl (h2 ▸ h1)
  · rcases hbc with h2 | ⟨h2, h2c⟩
    · exact Or.inl (h1 ▸ h2)
    · exact Or.inr ⟨h1.trans h2, h2c.trans h1c⟩

/-- The sort step of `showResults` in `main.go`, modelled as a deterministic
(stable) sort under the `sort.Slice` comparison. -/
def sortResults (moviesFiltered : List Result) : List Result :=
  List.insertionSort resLe moviesFiltered

/-- One network attempt's outcome inside `getPage` in `main.go`: either a
transport error from `client.Get`, or a response with a status code. -/
inductive FetchOutcome where
  | transportError : FetchOutcome
  | response : Nat → FetchOutcome
deriving DecidableEq, Repr

/-- The success test of `getPage`: no transport error and status `200`. -/
def attemptOk : FetchOutcome → Bool
  | FetchOutcome.response 200 => true
  | _ => false

/-- The retry loop of `getPage` in `main.go`, from a given `retry` index.
The network is modelled by `att`, mapping the attempt index to its outcome;
a successful parse is modelled by returning the succeeding attempt's index. -/
def getPageFrom (att : Nat → FetchOutcome) (retry : Nat) : Option Nat :=
  if h : retry < 10 then
    if attemptOk (att retry) then some retry else getPageFrom att (retry + 1)
  else none
termination_by 10 - retry
decreasing_by omega

/-- Function `getPage` from `main.go`: the retry loop started at `retry = 0`;
`none` models the `"no connection available"` error after 10 attempts. -/
def getPage (att : Nat → FetchOutcome) : Option Nat :=
  getPageFrom att 0

/-- One `li.poster-container` entry as `getRatedMovies` in `main.go` reads it:
the optional `data-target-link` attribute, whether a `p span.rating` element
exists, and that element's optional `class` attribute. -/
structure RawItem where
  link : Option String
  hasRating : Bool
  ratingClass : Option String
deriving DecidableEq, Repr

/-- One parsed listing page: its items and the optional
`div.pagination a.next` href. -/
structure Page where
  items : List RawItem
  next : Option String
deriving DecidableEq, Repr

/-- The rating-class parsing in `getRatedMovies`: split the class on spaces,
take the last part, strip `rated-`, parse the integer. -/
def parseRating (ratingClass : String) : Option Int :=
  (((ratingClass.splitOn " ").getLastD "").replace "rated-" "").toInt?

/-- The body of the `doc.Find(...).Each` callback in `getRatedMovies`,
threading the `moviesOnPage` flag and the accumulated `movies` slice. -/
def processItem (excludeMovies : List String) (acc : Bool × List Movie) (item : RawItem) :
    Bool × List Movie :=
  match item.link with
  | none => acc
  | some newTitle =>
    if item.hasRating = false then acc
    else
      let acc' := (true, acc.2)
      match item.ratingClass with
      | none => acc'
      | some cls =>
        match parseRating cls with
        | none => acc'
        | some rating =>
          if newTitle ∈ excludeMovies then acc'
          else (true, acc'.2 ++ [⟨newTitle, rating⟩])

/-- The page loop of `getRatedMovies` in `main.go`.  `fetch` abstracts
`getPage` per URL; `fuel` bounds the number of iterations (the Go loop has no
such bound, so every statement below holds for all sufficiently large fuel);
the second component records every URL passed to `fetch`, in order. -/
def getRatedMoviesLoop (fetch : String → Option Page) (excludeMovies : List String) :
    Nat → String → List Movie → List String → List Movie × List String
  | 0, _, movies, visited => (movies, visited)
  | fuel + 1, url, movies, visited =>
    let visited' := visited ++ [url]
    match fetch url with
    | none => (movies, visited')
    | some doc =>
      let step := doc.items.foldl (processItem excludeMovies) (false, movies)
      if step.1 = false then (step.2, visited')
      else
        match doc.next with
        | none => (step.2, visited')
        | some nextLink => getRatedMoviesLoop fetch excludeMovies fuel nextLink step.2 visited'

/-- The starting URL of `getRatedMovies` for a username. -/
def ratedMoviesUrl (username : String) : String :=
  "https://letterboxd.com/" ++ username ++ "/films/by/member-rating/"

/-- Function `getRatedMovies` from `main.go`: the movies collected by the page loop. -/
def getRatedMovies (fetch : String → Option Page) (username : String)
    (excludeMovies : List String) (fuel : Nat) : List Movie :=
  (getRatedMoviesLoop fetch excludeMovies fuel (ratedMoviesUrl username) [] []).1

/-- The page whose extraction drives `moviesOnPage` in `getRatedMovies`:
an item counts as extracted when it has a `data-target-link` and a rating
element. -/
def extractsAny (doc : Page) : Bool :=
  doc.items.any (fun it => it.link.isSome && it.hasRating)

/-- Function `collectMoviesParallel` from `main.go`: one `getRatedMovies` crawl per
friend, all results fanned into one list.  The channel interleaving is
arbitrary; properties below are proved for every ordering of `friends`, which
covers every fan-in order. -/
def collectMoviesParallel (fetch : String → Option Page) (friends : List String)
    (excludeMovies : List String) (fuel : Nat) : List Movie :=
  (friends.map fun friend => getRatedMovies fetch friend excludeMovies fuel).flatten

/-- The ratings contributed to item `u` by a list of observations. -/
def ratingsFor (u : String) (movies : List Movie) : List Int :=
  (movies.filter (fun y => y.URL == u)).map (fun y => y.Rating)

/-- The (itemKey, score, observationCount) triples produced by merging and
mean scoring (`mergeMovies` then `processResults` in `main.go`). -/
def aggregate (movies : List Movie) : List (String × ℚ × Nat) :=
  (processResults (mergeMovies movies)).map (fun r => (r.URL, r.AvgRating, r.VoteCount))

/-- Claim C1: the Bounded Collector's concurrency bound is
`floor(len(sources)/3) + 1`, capped above at 12, and overridden to
`len(sources)` itself whenever the formula would produce fewer than 2;
in particular 5 sources give 2 workers, 1 source gives 1, 40 sources give
12. -/
theorem collector_worker_count (n : Nat) :
    numWorkers n = (if n / 3 + 1 < 2 then n else min (n / 3 + 1) 12) ∧
    numWorkers 5 = 2 ∧ numWorkers 1 = 1 ∧ numWorkers 40 = 12 := by
  refine ⟨?_, by decide, by decide, by decide⟩
  simp only [numWorkers]
  rw [Nat.min_def]
  split_ifs <;> omega

/-- The accumulation loop of `weighted` keeps exactly the in-range ratings,
each mapped through the table. -/
theorem wList_eq_filter_map (list : List Int) :
    wList list =
      (list.filter (fun i => decide (0 ≤ i ∧ i < 10))).map (fun i => weights.getD i.toNat 0) := by
  induction list with
  | nil => rfl
  | cons i rest ih =>
    by_cases h : 0 ≤ i ∧ i < 10
    · simp only [wList, List.filter_cons, ih]
      rw [if_pos (by exact_mod_cast h), if_pos (by simpa using h)]
      rfl
    · simp only [wList, List.filter_cons, ih]
      rw [if_neg (by exact_mod_cast h), if_neg (by simpa using h)]

/-- Claim C5: weighted-table scoring maps each rating in `0..9` through
`[100, 95, 80, 65, 40, 20, 5, 0, 0, 0]`, discards ratings outside `0..9`
(which then do not contribute to the divisor of the mean), and returns the
mean of the mapped values; for `[2, 15]` the mapped list is `[80]` and the
score is `80`. -/
theorem weighted_table_scoring (list : List Int) :
    weighted list =
      avg ((list.filter (fun i => decide (0 ≤ i ∧ i < 10))).map (fun i => weights.getD i.toNat 0)) ∧
    (wList list).length = (list.filter (fun i => decide (0 ≤ i ∧ i < 10))).length ∧
    wList [2, 15] = [80] ∧ weighted [2, 15] = 80 := by
  refine ⟨?_, ?_, by decide, ?_⟩
  · rw [← wList_eq_filter_map]
    by_cases h : list.length = 0
    · rw [List.length_eq_zero] at h
      subst h
      rfl
    · simp [weighted, h]
  · rw [wList_eq_filter_map, List.length_map]
  · have h : wList [2, 15] = [80] := by decide
    rw [weighted, if_neg (by decide), h]
    norm_num [avg]

/-- Claim C10: if every rating lies outside `0..9` (in particular on the
empty list), the mapped list is empty and the weighted score is exactly `0`,
the mean of an empty list. -/
theorem weighted_all_out_of_range (list : List Int)
    (h : ∀ i ∈ list, i < 0 ∨ 10 ≤ i) :
    wList list = [] ∧ weighted list = 0 := by
  have hw : wList list = [] := by
    rw [wList_eq_filter_map]
    have : list.filter (fun i => decide (0 ≤ i ∧ i < 10)) = [] := by
      rw [List.filter_eq_nil_iff]
      intro a ha
      have := h a ha
      simp only [decide_eq_true_eq]
      omega
    rw [this]
    rfl
  refine ⟨hw, ?_⟩
  by_cases hl : list.length = 0
  · simp [weighted, hl]
  · simp [weighted, hl, hw, avg]

/-- Witness for C10: the concrete list `[15, -1]` is entirely out of range
and scores `0`. -/
theorem weighted_all_out_of_range_witness :
    (∀ i ∈ ([15, -1] : List Int), i < 0 ∨ 10 ≤ i) ∧
    (wList [15, -1] = [] ∧ weighted [15, -1] = 0) :=
  ⟨by decide, weighted_all_out_of_range [15, -1] (by decide)⟩

/-- Filtering with a weaker predicate keeps at least as many elements. -/
theorem length_filter_mono {α : Type} (p q : α → Bool) (l : List α)
    (h : ∀ a, p a = true → q a = true) :
    (l.filter p).length ≤ (l.filter q).length := by
  induction l with
  | nil => simp
  | cons a rest ih =>
    by_cases hp : p a = true
    · simp [List.filter_cons, hp, h a hp]
      omega
    · by_cases hq : q a = true <;>
        simp [List.filter_cons, hp, hq] <;> omega

/-- Claim C3: the threshold filter keeps exactly the scored items with
`observationCount >= t`, and raising the threshold never enlarges the
output. -/
theorem filter_threshold_exact (moviesList : List Result) (t1 t2 : Int) :
    (∀ x, x ∈ filterByThreshold moviesList t1 ↔
      x ∈ moviesList ∧ t1 ≤ (x.VoteCount : Int)) ∧
    (t1 ≤ t2 →
      (filterByThreshold moviesList t2).length ≤ (filterByThreshold moviesList t1).length) := by
  constructor
  · intro x
    simp [filterByThreshold, List.mem_filter]
  · intro h12
    apply length_filter_mono
    intro a ha
    simp only [decide_eq_true_eq] at ha ⊢
    omega

/-- Witness for C3: a concrete one-element collection with thresholds
`1 ≤ 2`. -/
theorem filter_threshold_exact_witness :
    ((1 : Int) ≤ 2) ∧
    (filterByThreshold [⟨1, 1, "x", [1]⟩] 2).length ≤
      (filterByThreshold [⟨1, 1, "x", [1]⟩] 1).length :=
  ⟨by decide, (filter_threshold_exact [⟨1, 1, "x", [1]⟩] 1 2).2 (by decide)⟩

/-- Relation `resLe a b` says exactly that `a` need not come after `b` under the
`sort.Slice` comparison of `showResults`. -/
theorem resLe_iff_not_goLess (a b : Result) : resLe a b ↔ ¬ goLess b a := by
  unfold resLe goLess
  by_cases h : b.AvgRating = a.AvgRating
  · simp [h, not_lt]
  · constructor
    · intro hab
      rcases hab with h1 | ⟨h1, _⟩
      · simp [h, not_lt, le_of_lt h1]
      · exact absurd h1.symm h
    · intro hnb
      simp only [ne_eq, h, not_false_eq_true, if_pos, not_lt] at hnb
      exact Or.inl (lt_of_le_of_ne hnb h)

/-- Claim C4 (amended): the sort of `showResults` produces a permutation of
its input ordered by score descending, breaking score ties by observation
count descending; items tied on both keys keep a deterministic order that is
not derived from the itemKey (the model, like Go's small-slice insertion
sort, keeps them in input order).  The spec example
`[(A, 0.9, 3), (B, 0.9, 5), (C, 0.95, 1)]` comes out `C, B, A`. -/
theorem rank_sort_order (l : List Result) :
    (sortResults l).Perm l ∧
    List.Sorted resLe (sortResults l) ∧
    sortResults [⟨9/10, 3, "A", []⟩, ⟨9/10, 5, "B", []⟩, ⟨95/100, 1, "C", []⟩] =
      [⟨95/100, 1, "C", []⟩, ⟨9/10, 5, "B", []⟩, ⟨9/10, 3, "A", []⟩] := by
  refine ⟨List.perm_insertionSort resLe l, List.sorted_insertionSort resLe l, ?_⟩
  norm_num [sortResults, List.insertionSort, List.orderedInsert, resLe]

/-- Counterexample to Claim C4 as stated: two items exactly tied on score and
observation count are not reordered by itemKey; the comparison never looks at
the itemKey, so the item with key `"b"` stays in front of the one with key
`"a"`. -/
theorem rank_sort_no_itemkey_tiebreak :
    (Result.AvgRating ⟨1, 2, "b", []⟩ = Result.AvgRating ⟨1, 2, "a", []⟩) ∧
    (Result.VoteCount ⟨1, 2, "b", []⟩ = Result.VoteCount ⟨1, 2, "a", []⟩) ∧
    ("a" : String) < "b" ∧
    (sortResults [⟨1, 2, "b", []⟩, ⟨1, 2, "a", []⟩]).map Result.URL = ["b", "a"] ∧
    (["b", "a"] : List String) ≠ ["a", "b"] := by
  refine ⟨rfl, rfl, ?_, ?_, by decide⟩
  · rw [String.lt_iff_toList_lt]
    decide
  · norm_num [sortResults, List.insertionSort, List.orderedInsert, resLe]

/-- Unfolding equation for one iteration of the retry loop. -/
theorem getPageFrom_eq (att : Nat → FetchOutcome) (retry : Nat) :
    getPageFrom att retry =
      if retry < 10 then
        (if attemptOk (att retry) = true then some retry else getPageFrom att (retry + 1))
      else none := by
  rw [getPageFrom]
  by_cases h10 : retry < 10
  · rw [dif_pos h10, if_pos h10]
  · rw [dif_neg h10, if_neg h10]

/-- The retry loop only consults attempt indices below 10. -/
theorem getPageFrom_congr (att att' : Nat → FetchOutcome)
    (hagree : ∀ i, i < 10 → att i = att' i) :
    ∀ d retry, 10 - retry ≤ d → getPageFrom att retry = getPageFrom att' retry := by
  intro d
  induction d with
  | zero =>
    intro retry hr
    have h10 : ¬ retry < 10 := by omega
    rw [getPageFrom_eq att retry, getPageFrom_eq att' retry, if_neg h10, if_neg h10]
  | succ d ih =>
    intro retry hr
    by_cases h10 : retry < 10
    · rw [getPageFrom_eq att retry, getPageFrom_eq att' retry, if_pos h10, if_pos h10,
        hagree retry h10]
      by_cases hok : attemptOk (att' retry) = true
      · rw [if_pos hok, if_pos hok]
      · rw [if_neg hok, if_neg hok]
        exact ih (retry + 1) (by omega)
    · rw [getPageFrom_eq att retry, getPageFrom_eq att' retry, if_neg h10, if_neg h10]

/-- If every attempt up to the ceiling fails, the retry loop yields nothing. -/
theorem getPageFrom_none (att : Nat → FetchOutcome)
    (hfail : ∀ i, i < 10 → attemptOk (att i) = false) :
    ∀ d retry, 10 - retry ≤ d → getPageFrom att retry = none := by
  intro d
  induction d with
  | zero =>
    intro retry hr
    rw [getPageFrom_eq att retry, if_neg (by omega)]
  | succ d ih =>
    intro retry hr
    by_cases h10 : retry < 10
    · rw [getPageFrom_eq att retry, if_pos h10,
        if_neg (by rw [hfail retry h10]; exact Bool.false_ne_true)]
      exact ih (retry + 1) (by omega)
    · rw [getPageFrom_eq att retry, if_neg h10]

/-- The retry loop returns the first succeeding attempt. -/
theorem getPageFrom_success (att : Nat → FetchOutcome) (k : Nat) (hk : k < 10)
    (hs : attemptOk (att k) = true) :
    ∀ d retry, retry ≤ k → k - retry ≤ d →
      (∀ i, retry ≤ i → i < k → attemptOk (att i) = false) →
      getPageFrom att retry = some k := by
  intro d
  induction d with
  | zero =>
    intro retry hrk hd _
    have hek : retry = k := by omega
    subst hek
    rw [getPageFrom_eq att retry, if_pos hk, if_pos hs]
  | succ d ih =>
    intro retry hrk hd hbefore
    by_cases heq : retry = k
    · subst heq
      rw [getPageFrom_eq att retry, if_pos hk, if_pos hs]
    · have hlt : retry < k := by omega
      rw [getPageFrom_eq att retry, if_pos (by omega),
        if_neg (by rw [hbefore retry le_rfl hlt]; exact Bool.false_ne_true)]
      exact ih (retry + 1) (by omega) (by omega) (fun i h1 h2 => hbefore i (by omega) h2)

/-- Claim C7: `getPage` makes at most 10 attempts in total (its result depends
only on the outcomes of attempts `0..9`), retries past any transport error or
non-success status up to the first success, returns no document when all 10
attempts fail, and a fetch failure merely terminates the calling crawl with
its partial result (the page loop returns the movies accumulated so far). -/
theorem fetch_retry_bound :
    (∀ att att' : Nat → FetchOutcome,
      (∀ i, i < 10 → att i = att' i) → getPage att = getPage att') ∧
    (∀ att : Nat → FetchOutcome,
      (∀ i, i < 10 → attemptOk (att i) = false) → getPage att = none) ∧
    (∀ (att : Nat → FetchOutcome) (k : Nat), k < 10 → attemptOk (att k) = true →
      (∀ i, i < k → attemptOk (att i) = false) → getPage att = some k) ∧
    (∀ (fetch : String → Option Page) (excl : List String) (n : Nat) (u : String)
      (ms : List Movie) (tr : List String), fetch u = none →
      getRatedMoviesLoop fetch excl (n + 1) u ms tr = (ms, tr ++ [u])) := by
  refine ⟨?_, ?_, ?_, ?_⟩
  · intro att att' h
    exact getPageFrom_congr att att' h 10 0 (by omega)
  · intro att h
    exact getPageFrom_none att h 10 0 (by omega)
  · intro att k hk hs hb
    exact getPageFrom_success att k hk hs k 0 (by omega) (by omega)
      (fun i _ h2 => hb i h2)
  · intro fetch excl n u ms tr h
    simp [getRatedMoviesLoop, h]

/-- Witness for C7: a network that always errors yields no document; one that
succeeds on the third attempt yields it after two retries; a failed page
fetch ends the crawl with the movies collected so far. -/
theorem fetch_retry_bound_witness :
    getPage (fun _ => FetchOutcome.transportError) = none ∧
    getPage (fun i => if i = 2 then FetchOutcome.response 200 else FetchOutcome.response 503) =
      some 2 ∧
    getRatedMoviesLoop (fun _ => none) [] 1 "u" [⟨"/film/m/", 7⟩] [] =
      ([⟨"/film/m/", 7⟩], ["u"]) := by
  refine ⟨?_, ?_, ?_⟩
  · exact fetch_retry_bound.2.1 _ (fun i _ => rfl)
  · refine fetch_retry_bound.2.2.1 _ 2 (by omega) (by decide) ?_
    intro i hi
    interval_cases i <;> decide
  · exact fetch_retry_bound.2.2.2 _ [] 0 "u" [⟨"/film/m/", 7⟩] [] rfl

/-- One `Each`-callback step raises the `moviesOnPage` flag exactly when the
item carries a link and a rating element. -/
theorem processItem_fst (excl : List String) (acc : Bool × List Movie) (item : RawItem) :
    (processItem excl acc item).1 = (acc.1 || (item.link.isSome && item.hasRating)) := by
  unfold processItem
  match item with
  | ⟨none, hr, rc⟩ => simp
  | ⟨some t, hr, rc⟩ =>
    by_cases hhr : hr = false
    · subst hhr
      simp
    · simp only [Bool.not_eq_false] at hhr
      subst hhr
      cases rc with
      | none => simp
      | some cls =>
        cases hpr : parseRating cls with
        | none => simp [hpr]
        | some rating =>
          by_cases hmem : t ∈ excl <;> simp [hpr, hmem]

/-- After folding a page's items, the `moviesOnPage` flag says whether any
item was extracted. -/
theorem foldl_processItem_fst (excl : List String) (items : List RawItem)
    (b : Bool) (ms : List Movie) :
    (items.foldl (processItem excl) (b, ms)).1 =
      (b || items.any (fun it => it.link.isSome && it.hasRating)) := by
  induction items generalizing b ms with
  | nil => simp
  | cons it rest ih =>
    rw [List.foldl_cons, List.any_cons]
    have hstep : processItem excl (b, ms) it =
        ((b || (it.link.isSome && it.hasRating)), (processItem excl (b, ms) it).2) := by
      rw [← processItem_fst excl (b, ms) it]
    rw [hstep, ih, Bool.or_assoc]

/-- A page whose extraction succeeds and which has a next link makes the page
loop continue at the next link. -/
theorem getRatedMoviesLoop_step (fetch : String → Option Page) (excl : List String)
    (n : Nat) (u u' : String) (ms : List Movie) (tr : List String) (p : Page)
    (hp : fetch u = some p) (he : extractsAny p = true) (hn : p.next = some u') :
    getRatedMoviesLoop fetch excl (n + 1) u ms tr =
      getRatedMoviesLoop fetch excl n u'
        (p.items.foldl (processItem excl) (false, ms)).2 (tr ++ [u]) := by
  rw [getRatedMoviesLoop, hp]
  have hflag : (p.items.foldl (processItem excl) (false, ms)).1 = true := by
    rw [foldl_processItem_fst]
    simpa [extractsAny] using he
  simp only [hflag, Bool.true_eq_false, if_false, hn, if_neg]

/-- A page from which nothing is extracted stops the page loop, even when a
next link exists. -/
theorem getRatedMoviesLoop_stop (fetch : String → Option Page) (excl : List String)
    (n : Nat) (u : String) (ms : List Movie) (tr : List String) (p : Page)
    (hp : fetch u = some p) (he : extractsAny p = false) :
    getRatedMoviesLoop fetch excl (n + 1) u ms tr =
      ((p.items.foldl (processItem excl) (false, ms)).2, tr ++ [u]) := by
  rw [getRatedMoviesLoop, hp]
  have hflag : (p.items.foldl (processItem excl) (false, ms)).1 = false := by
    rw [foldl_processItem_fst]
    simpa [extractsAny] using he
  simp only [hflag, if_pos]

/-- Claim C6: under the rated-items termination policy, the crawl stops at the
first page that extracts zero items even when that page carries a next-page
link: when pages 1 and 2 extract items and link onward, and page 3 extracts
none but still links to page 4, the crawl fetches exactly pages 1, 2, 3 and
never fetches page 4. -/
theorem crawl_stops_on_empty_page
    (fetch : String → Option Page) (excl : List String) (fuel : Nat)
    (u1 u2 u3 u4 : String) (p1 p2 p3 : Page)
    (h1 : fetch u1 = some p1) (e1 : extractsAny p1 = true) (n1 : p1.next = some u2)
    (h2 : fetch u2 = some p2) (e2 : extractsAny p2 = true) (n2 : p2.next = some u3)
    (h3 : fetch u3 = some p3) (e3 : extractsAny p3 = false) (n3 : p3.next = some u4)
    (hf : 3 ≤ fuel) (hu : u4 ∉ [u1, u2, u3]) :
    (getRatedMoviesLoop fetch excl fuel u1 [] []).2 = [u1, u2, u3] ∧
    u4 ∉ (getRatedMoviesLoop fetch excl fuel u1 [] []).2 := by
  obtain ⟨k, rfl⟩ : ∃ k, fuel = k + 3 := ⟨fuel - 3, by omega⟩
  have step1 := getRatedMoviesLoop_step fetch excl (k + 2) u1 u2 [] [] p1 h1 e1 n1
  have step2 := getRatedMoviesLoop_step fetch excl (k + 1) u2 u3
    (p1.items.foldl (processItem excl) (false, [])).2 [u1] p2 h2 e2 n2
  have step3 := getRatedMoviesLoop_stop fetch excl k u3
    (p2.items.foldl (processItem excl)
      (false, (p1.items.foldl (processItem excl) (false, [])).2)).2 [u1, u2] p3 h3 e3
  have hchain : (getRatedMoviesLoop fetch excl (k + 3) u1 [] []).2 = [u1, u2, u3] := by
    show (getRatedMoviesLoop fetch excl ((k + 2) + 1) u1 [] []).2 = [u1, u2, u3]
    rw [step1]
    show (getRatedMoviesLoop fetch excl ((k + 1) + 1) u2 _ [u1]).2 = [u1, u2, u3]
    rw [step2]
    show (getRatedMoviesLoop fetch excl (k + 1) u3 _ [u1, u2]).2 = [u1, u2, u3]
    rw [step3]
    rfl
  exact ⟨hchain, by rw [hchain]; exact hu⟩

/-- Witness for C6: a concrete three-page site whose third page has an unrated
item only and a next link to a fourth page; the crawl visits pages 1-3. -/
def siteC6 : String → Option Page := fun u =>
  if u = "page1" then some ⟨[⟨some "/film/x/", true, some "rated-7"⟩], some "page2"⟩
  else if u = "page2" then some ⟨[⟨some "/film/y/", true, some "rated-8"⟩], some "page3"⟩
  else if u = "page3" then some ⟨[⟨some "/film/z/", false, none⟩], some "page4"⟩
  else if u = "page4" then some ⟨[⟨some "/film/w/", true, some "rated-9"⟩], none⟩
  else none

theorem crawl_stops_on_empty_page_witness :
    (getRatedMoviesLoop siteC6 [] 5 "page1" [] []).2 = ["page1", "page2", "page3"] ∧
    "page4" ∉ (getRatedMoviesLoop siteC6 [] 5 "page1" [] []).2 :=
  crawl_stops_on_empty_page siteC6 [] 5 "page1" "page2" "page3" "page4"
    ⟨[⟨some "/film/x/", true, some "rated-7"⟩], some "page2"⟩
    ⟨[⟨some "/film/y/", true, some "rated-8"⟩], some "page3"⟩
    ⟨[⟨some "/film/z/", false, none⟩], some "page4"⟩
    (by decide) (by decide) (by decide)
    (by decide) (by decide) (by decide)
    (by decide) (by decide) (by decide)
    (by omega) (by decide)

/-- One `Each`-callback step never appends an excluded title. -/
theorem processItem_clean (excl : List String) (acc : Bool × List Movie) (item : RawItem)
    (hacc : ∀ m ∈ acc.2, m.URL ∉ excl) :
    ∀ m ∈ (processItem excl acc item).2, m.URL ∉ excl := by
  match item with
  | ⟨none, hr, rc⟩ => simpa [processItem] using hacc
  | ⟨some t, hr, rc⟩ =>
    cases hr with
    | false => simpa [processItem] using hacc
    | true =>
      cases rc with
      | none => simpa [processItem] using hacc
      | some cls =>
        cases hpr : parseRating cls with
        | none => simpa [processItem, hpr] using hacc
        | some rating =>
          by_cases hmem : t ∈ excl
          · simpa [processItem, hpr, hmem] using hacc
          · intro m hm
            simp [processItem, hpr, if_neg hmem] at hm
            rcases hm with hm | rfl
            · exact hacc m hm
            · exact hmem

/-- Folding a whole page's items never appends an excluded title. -/
theorem foldl_processItem_clean (excl : List String) (items : List RawItem)
    (acc : Bool × List Movie) (hacc : ∀ m ∈ acc.2, m.URL ∉ excl) :
    ∀ m ∈ (items.foldl (processItem excl) acc).2, m.URL ∉ excl := by
  induction items generalizing acc with
  | nil => exact hacc
  | cons it rest ih =>
    rw [List.foldl_cons]
    exact ih (processItem excl acc it) (processItem_clean excl acc it hacc)

/-- The page loop of `getRatedMovies` never emits an excluded title. -/
theorem getRatedMoviesLoop_clean (fetch : String → Option Page) (excl : List String) :
    ∀ (fuel : Nat) (url : String) (ms : List Movie) (tr : List String),
      (∀ m ∈ ms, m.URL ∉ excl) →
      ∀ m ∈ (getRatedMoviesLoop fetch excl fuel url ms tr).1, m.URL ∉ excl := by
  intro fuel
  induction fuel with
  | zero =>
    intro url ms tr hms
    exact hms
  | succ n ih =>
    intro url ms tr hms
    rw [getRatedMoviesLoop]
    cases hf : fetch url with
    | none => exact hms
    | some doc =>
      simp only []
      have hstep := foldl_processItem_clean excl doc.items (false, ms) hms
      by_cases hflag : (doc.items.foldl (processItem excl) (false, ms)).1 = false
      · simp only [hflag, if_pos]
        exact hstep
      · simp only [hflag, if_neg, if_false]
        cases doc.next with
        | none => exact hstep
        | some nextLink =>
          exact ih nextLink (doc.items.foldl (processItem excl) (false, ms)).2 (tr ++ [url]) hstep

/-- Claim C9: the Bounded Collector applies the excluded item-key filter
before emitting Observations: for every network, every source list and every
excluded set, no observation whose itemKey is excluded appears in the
collector's output (stated as: filtering the output for excluded keys yields
nothing). -/
theorem collector_excludes (fetch : String → Option Page) (friends excl : List String)
    (fuel : Nat) :
    (collectMoviesParallel fetch friends excl fuel).filter
      (fun m => decide (m.URL ∈ excl)) = [] := by
  rw [List.filter_eq_nil_iff]
  intro m hm
  simp only [decide_eq_true_eq]
  rw [collectMoviesParallel, List.mem_flatten] at hm
  obtain ⟨lst, hlst, hmlst⟩ := hm
  rw [List.mem_map] at hlst
  obtain ⟨friend, _, rfl⟩ := hlst
  exact getRatedMoviesLoop_clean fetch excl fuel (ratedMoviesUrl friend) [] []
    (by intro x hx; cases hx) m hmlst

/-- Unfolding equation: the empty observation list makes no groups. -/
theorem mergeRuns_nil : mergeRuns [] = [] := by
  rw [mergeRuns]

/-- Unfolding equation: one grouping step of `mergeMovies`. -/
theorem mergeRuns_cons (m : Movie) (rest : List Movie) :
    mergeRuns (m :: rest) =
      ⟨m.URL, m.Rating :: (rest.takeWhile (fun x => x.URL == m.URL)).map (fun x => x.Rating)⟩ ::
        mergeRuns (rest.dropWhile (fun x => x.URL == m.URL)) := by
  rw [mergeRuns]

/-- The group sizes produced by the grouping loop add up to the input size. -/
theorem mergeRuns_sum_lengths : ∀ (n : Nat) (l : List Movie), l.length ≤ n →
    ((mergeRuns l).map (fun g => g.Ratings.length)).sum = l.length := by
  intro n
  induction n with
  | zero =>
    intro l hl
    have hnil : l = [] := List.length_eq_zero.1 (Nat.le_zero.1 hl)
    subst hnil
    simp [mergeRuns_nil]
  | succ n ih =>
    intro l hl
    cases l with
    | nil => simp [mergeRuns_nil]
    | cons m rest =>
      rw [mergeRuns_cons]
      simp only [List.map_cons, List.sum_cons, List.length_cons, List.length_map]
      have hsplit := congrArg List.length
        (List.takeWhile_append_dropWhile (fun x => x.URL == m.URL) rest)
      rw [List.length_append] at hsplit
      have hdrop : (rest.dropWhile (fun x => x.URL == m.URL)).length ≤ n := by
        have := (@List.dropWhile_sublist _ rest (fun x => x.URL == m.URL)).length_le
        simp only [List.length_cons] at hl
        omega
      rw [ih (rest.dropWhile (fun x => x.URL == m.URL)) hdrop]
      omega

/-- The grouping loop neither invents nor loses item keys. -/
theorem mergeRuns_mem_urls : ∀ (n : Nat) (l : List Movie), l.length ≤ n →
    ∀ u, u ∈ (mergeRuns l).map (fun g => g.URL) ↔ u ∈ l.map (fun x => x.URL) := by
  intro n
  induction n with
  | zero =>
    intro l hl u
    have hnil : l = [] := List.length_eq_zero.1 (Nat.le_zero.1 hl)
    subst hnil
    simp [mergeRuns_nil]
  | succ n ih =>
    intro l hl u
    cases l with
    | nil => simp [mergeRuns_nil]
    | cons m rest =>
      rw [mergeRuns_cons]
      simp only [List.map_cons, List.mem_cons]
      by_cases hu : u = m.URL
      · simp [hu]
      · simp only [hu, false_or]
        have hdrop : (rest.dropWhile (fun x => x.URL == m.URL)).length ≤ n := by
          have := (@List.dropWhile_sublist _ rest (fun x => x.URL == m.URL)).length_le
          simp only [List.length_cons] at hl
          omega
        rw [ih (rest.dropWhile (fun x => x.URL == m.URL)) hdrop u]
        constructor
        · intro h
          exact (((@List.dropWhile_sublist _ rest (fun x => x.URL == m.URL))).map
            (fun x => x.URL)).subset h
        · intro h
          have h2 : u ∈ (rest.takeWhile (fun x => x.URL == m.URL) ++
              rest.dropWhile (fun x => x.URL == m.URL)).map (fun x => x.URL) := by
            rw [List.takeWhile_append_dropWhile]
            exact h
          rw [List.map_append, List.mem_append] at h2
          rcases h2 with h2 | h2
          · exfalso
            obtain ⟨x, hx, hxu⟩ := List.mem_map.1 h2
            have := List.mem_takeWhile_imp hx
            rw [beq_iff_eq] at this
            exact hu (hxu ▸ this ▸ rfl)
          · exact h2

/-- In a URL-sorted list, everything after the head's run has a different URL
from the head. -/
theorem sorted_dropWhile_ne (m : Movie) :
    ∀ rest : List Movie, List.Sorted movieLe (m :: rest) →
      ∀ x ∈ rest.dropWhile (fun y => y.URL == m.URL), ¬ x.URL = m.URL := by
  intro rest
  induction rest with
  | nil =>
    intro _ x hx
    simp at hx
  | cons y ys ih =>
    intro hs x hx
    have hs1 := (List.sorted_cons.1 hs).1
    have hs2 := (List.sorted_cons.1 hs).2
    by_cases hy : (y.URL == m.URL) = true
    · rw [List.dropWhile_cons, if_pos hy] at hx
      refine ih ?_ x hx
      rw [List.sorted_cons]
      exact ⟨fun b hb => hs1 b (List.mem_cons_of_mem y hb), (List.sorted_cons.1 hs2).2⟩
    · rw [List.dropWhile_cons, if_neg hy] at hx
      have hym : ¬ y.URL = m.URL := by simpa using hy
      have hmy : m.URL ≤ y.URL := hs1 y (List.mem_cons_self y ys)
      have hlt : m.URL < y.URL := lt_of_le_of_ne hmy (fun he => hym he.symm)
      rcases List.mem_cons.1 hx with rfl | hx'
      · exact hym
      · have hyx : y.URL ≤ x.URL := (List.sorted_cons.1 hs2).1 x hx'
        intro he
        have hfin : m.URL < x.URL := lt_of_lt_of_le hlt hyx
        rw [he] at hfin
        exact lt_irrefl _ hfin

/-- The tail of a URL-sorted list is sorted after dropping the head's run. -/
theorem sorted_dropWhile (m : Movie) (rest : List Movie)
    (hs : List.Sorted movieLe (m :: rest)) :
    List.Sorted movieLe (rest.dropWhile (fun y => y.URL == m.URL)) :=
  List.Pairwise.sublist (@List.dropWhile_sublist _ rest (fun y => y.URL == m.URL))
    (List.sorted_cons.1 hs).2

/-- The grouping loop produces pairwise distinct group keys on sorted input. -/
theorem mergeRuns_nodup : ∀ (n : Nat) (l : List Movie), l.length ≤ n →
    List.Sorted movieLe l → ((mergeRuns l).map (fun g => g.URL)).Nodup := by
  intro n
  induction n with
  | zero =>
    intro l hl _
    have hnil : l = [] := List.length_eq_zero.1 (Nat.le_zero.1 hl)
    subst hnil
    simp [mergeRuns_nil]
  | succ n ih =>
    intro l hl hs
    cases l with
    | nil => simp [mergeRuns_nil]
    | cons m rest =>
      rw [mergeRuns_cons]
      simp only [List.map_cons, List.nodup_cons]
      have hdrop : (rest.dropWhile (fun x => x.URL == m.URL)).length ≤ n := by
        have := (@List.dropWhile_sublist _ rest (fun x => x.URL == m.URL)).length_le
        simp only [List.length_cons] at hl
        omega
      constructor
      · intro hmem
        rw [mergeRuns_mem_urls (rest.dropWhile (fun x => x.URL == m.URL)).length _ le_rfl
          m.URL] at hmem
        obtain ⟨x, hx, hxu⟩ := List.mem_map.1 hmem
        exact sorted_dropWhile_ne m rest hs x hx hxu
      · exact ih _ hdrop (sorted_dropWhile m rest hs)

/-- Entries of the head's run filtered for a different key vanish. -/
theorem filter_takeWhile_ne (rest : List Movie) (a b : String) (hab : ¬ b = a) :
    (rest.takeWhile (fun y => y.URL == a)).filter (fun y => y.URL == b) = [] := by
  rw [List.filter_eq_nil_iff]
  intro x hx
  have hxa := List.mem_takeWhile_imp hx
  rw [beq_iff_eq] at hxa
  simp only [hxa, beq_iff_eq]
  exact fun h => hab h.symm

/-- On sorted input, filtering for the head's key gives exactly the head's
run. -/
theorem filter_head_run (m : Movie) (rest : List Movie)
    (hs : List.Sorted movieLe (m :: rest)) :
    rest.filter (fun y => y.URL == m.URL) = rest.takeWhile (fun y => y.URL == m.URL) := by
  conv_lhs => rw [← List.takeWhile_append_dropWhile (fun y => y.URL == m.URL) rest]
  rw [List.filter_append]
  have h1 : (rest.takeWhile (fun y => y.URL == m.URL)).filter (fun y => y.URL == m.URL) =
      rest.takeWhile (fun y => y.URL == m.URL) := by
    rw [List.filter_eq_self]
    intro a ha
    have hpa := List.mem_takeWhile_imp ha
    exact hpa
  have h2 : (rest.dropWhile (fun y => y.URL == m.URL)).filter (fun y => y.URL == m.URL) = [] := by
    rw [List.filter_eq_nil_iff]
    intro x hx
    have := sorted_dropWhile_ne m rest hs x hx
    simp [this]
  rw [h1, h2, List.append_nil]

/-- On sorted input, each produced group's ratings are exactly the ratings of
the input entries carrying the group's key. -/
theorem mergeRuns_ratings : ∀ (n : Nat) (l : List Movie), l.length ≤ n →
    List.Sorted movieLe l →
    ∀ g ∈ mergeRuns l,
      g.Ratings = (l.filter (fun y => y.URL == g.URL)).map (fun y => y.Rating) := by
  intro n
  induction n with
  | zero =>
    intro l hl _ g hg
    have hnil : l = [] := List.length_eq_zero.1 (Nat.le_zero.1 hl)
    subst hnil
    rw [mergeRuns_nil] at hg
    cases hg
  | succ n ih =>
    intro l hl hs g hg
    cases l with
    | nil =>
      rw [mergeRuns_nil] at hg
      cases hg
    | cons m rest =>
      rw [mergeRuns_cons] at hg
      have hdrop : (rest.dropWhile (fun x => x.URL == m.URL)).length ≤ n := by
        have := (@List.dropWhile_sublist _ rest (fun x => x.URL == m.URL)).length_le
        simp only [List.length_cons] at hl
        omega
      rcases List.mem_cons.1 hg with rfl | htail
      · show (m.Rating :: (rest.takeWhile (fun x => x.URL == m.URL)).map (fun x => x.Rating)) =
          ((m :: rest).filter (fun y => y.URL == m.URL)).map (fun y => y.Rating)
        rw [List.filter_cons, if_pos (beq_self_eq_true m.URL), List.map_cons,
          filter_head_run m rest hs]
      · have hne : ¬ g.URL = m.URL := by
          have hmem : g.URL ∈ (mergeRuns (rest.dropWhile (fun x => x.URL == m.URL))).map
              (fun h => h.URL) := List.mem_map_of_mem (fun h => h.URL) htail
          rw [mergeRuns_mem_urls (rest.dropWhile (fun x => x.URL == m.URL)).length _ le_rfl
            g.URL] at hmem
          obtain ⟨x, hx, hxu⟩ := List.mem_map.1 hmem
          exact hxu ▸ sorted_dropWhile_ne m rest hs x hx
        have hrec := ih _ hdrop (sorted_dropWhile m rest hs) g htail
        have heq : (m :: rest).filter (fun y => y.URL == g.URL) =
            (rest.dropWhile (fun x => x.URL == m.URL)).filter (fun y => y.URL == g.URL) := by
          rw [List.filter_cons,
            if_neg (by simp only [beq_iff_eq]; exact fun h => hne h.symm)]
          conv_lhs => rw [← List.takeWhile_append_dropWhile (fun x => x.URL == m.URL) rest]
          rw [List.filter_append, filter_takeWhile_ne rest m.URL g.URL hne, List.nil_append]
        rw [heq]
        exact hrec

/-- Claim C2: for every observation list, `mergeMovies` is an exact
partition: the group sizes sum to the number of observations, the group keys
are pairwise distinct, and the group keys are exactly the item keys occurring
in the input — so every input itemKey appears in exactly one group. -/
theorem merge_partition (movies : List Movie) :
    ((mergeMovies movies).map (fun g => g.Ratings.length)).sum = movies.length ∧
    ((mergeMovies movies).map (fun g => g.URL)).Nodup ∧
    (∀ u, u ∈ (mergeMovies movies).map (fun g => g.URL) ↔
      u ∈ movies.map (fun x => x.URL)) := by
  have hperm := List.perm_insertionSort movieLe movies
  have hsort := List.sorted_insertionSort movieLe movies
  refine ⟨?_, ?_, ?_⟩
  · rw [mergeMovies,
      mergeRuns_sum_lengths (List.insertionSort movieLe movies).length _ le_rfl]
    exact hperm.length_eq
  · exact mergeRuns_nodup (List.insertionSort movieLe movies).length _ le_rfl hsort
  · intro u
    rw [mergeMovies,
      mergeRuns_mem_urls (List.insertionSort movieLe movies).length _ le_rfl u]
    exact (hperm.map (fun x => x.URL)).mem_iff

/-- Value `avg` only depends on the multiset of ratings. -/
theorem avg_perm (l1 l2 : List Int) (h : l1.Perm l2) : avg l1 = avg l2 := by
  unfold avg
  rw [h.length_eq, h.sum_eq]

/-- The aggregate triples, computed directly from the merged groups. -/
theorem aggregate_eq (movies : List Movie) :
    aggregate movies =
      (mergeMovies movies).map (fun g => (g.URL, avg g.Ratings, g.Ratings.length)) := by
  rw [aggregate, processResults, List.map_map]
  rfl

/-- The per-key rating lists over a sorted permutation of the input have the
same multiset as over the input itself. -/
theorem ratingsFor_sorted_perm (u : String) (movies : List Movie) :
    (ratingsFor u (List.insertionSort movieLe movies)).Perm (ratingsFor u movies) := by
  unfold ratingsFor
  exact ((List.perm_insertionSort movieLe movies).filter (fun y => y.URL == u)).map
    (fun y => y.Rating)

/-- Membership in the aggregate output, characterised per item key. -/
theorem aggregate_mem (movies : List Movie) (t : String × ℚ × Nat) :
    t ∈ aggregate movies ↔
      ∃ u, u ∈ movies.map (fun x => x.URL) ∧
        t = (u, avg (ratingsFor u movies), (ratingsFor u movies).length) := by
  rw [aggregate_eq, List.mem_map, mergeMovies]
  have hsort := List.sorted_insertionSort movieLe movies
  constructor
  · rintro ⟨g, hg, rfl⟩
    refine ⟨g.URL, ?_, ?_⟩
    · rw [← (List.perm_insertionSort movieLe movies).map (fun x => x.URL) |>.mem_iff,
        ← mergeRuns_mem_urls (List.insertionSort movieLe movies).length _ le_rfl g.URL]
      exact List.mem_map_of_mem (fun g => g.URL) hg
    · have hr := mergeRuns_ratings (List.insertionSort movieLe movies).length _ le_rfl
        hsort g hg
      have hperm : g.Ratings.Perm (ratingsFor g.URL movies) := by
        rw [hr]
        exact ratingsFor_sorted_perm g.URL movies
      rw [avg_perm _ _ hperm, hperm.length_eq]
  · rintro ⟨u, hu, rfl⟩
    have hu' : u ∈ (mergeRuns (List.insertionSort movieLe movies)).map (fun g => g.URL) := by
      rw [mergeRuns_mem_urls (List.insertionSort movieLe movies).length _ le_rfl u,
        ((List.perm_insertionSort movieLe movies).map (fun x => x.URL)).mem_iff]
      exact hu
    obtain ⟨g, hg, hgu⟩ := List.mem_map.1 hu'
    refine ⟨g, hg, ?_⟩
    have hr := mergeRuns_ratings (List.insertionSort movieLe movies).length _ le_rfl
      hsort g hg
    have hperm : g.Ratings.Perm (ratingsFor u movies) := by
      rw [hr, hgu]
      exact ratingsFor_sorted_perm u movies
    rw [hgu, avg_perm _ _ hperm, hperm.length_eq]

/-- The aggregate triples have pairwise distinct item keys. -/
theorem aggregate_nodup (movies : List Movie) : (aggregate movies).Nodup := by
  apply List.Nodup.of_map Prod.fst
  have h1 : (aggregate movies).map Prod.fst = (mergeMovies movies).map (fun g => g.URL) := by
    rw [aggregate_eq, List.map_map]
    rfl
  rw [h1, mergeMovies]
  exact mergeRuns_nodup (List.insertionSort movieLe movies).length _ le_rfl
    (List.sorted_insertionSort movieLe movies)

/-- Claim C8: mean aggregation is insensitive to observation order — merging
then mean scoring any two permutations of the same observation multiset
produces the same multiset (hence set) of (itemKey, score, observationCount)
triples; in particular re-aggregating the same multiset reproduces the same
output. -/
theorem aggregation_order_insensitive (l l' : List Movie) (h : l.Perm l') :
    (aggregate l).Perm (aggregate l') := by
  rw [List.perm_ext_iff_of_nodup (aggregate_nodup l) (aggregate_nodup l')]
  intro t
  rw [aggregate_mem, aggregate_mem]
  constructor
  · rintro ⟨u, hu, rfl⟩
    refine ⟨u, (h.map (fun x => x.URL)).mem_iff.1 hu, ?_⟩
    have hp : (ratingsFor u l).Perm (ratingsFor u l') := by
      unfold ratingsFor
      exact (h.filter (fun y => y.URL == u)).map (fun y => y.Rating)
    rw [avg_perm _ _ hp, hp.length_eq]
  · rintro ⟨u, hu, rfl⟩
    refine ⟨u, (h.map (fun x => x.URL)).mem_iff.2 hu, ?_⟩
    have hp : (ratingsFor u l').Perm (ratingsFor u l) := by
      unfold ratingsFor
      exact (h.symm.filter (fun y => y.URL == u)).map (fun y => y.Rating)
    rw [avg_perm _ _ hp, hp.length_eq]

/-- Witness for C8: two concrete interleavings of the same two observations
aggregate to the same triples. -/
theorem aggregation_order_insensitive_witness :
    (([⟨"/film/x/", 3⟩, ⟨"/film/y/", 5⟩] : List Movie).Perm
      [⟨"/film/y/", 5⟩, ⟨"/film/x/", 3⟩]) ∧
    (aggregate [⟨"/film/x/", 3⟩, ⟨"/film/y/", 5⟩]).Perm
      (aggregate [⟨"/film/y/", 5⟩, ⟨"/film/x/", 3⟩]) :=
  ⟨List.Perm.swap _ _ _, aggregation_order_insensitive _ _ (List.Perm.swap _ _ _)⟩
